import Mathlib

/-!
Verification development for the RQPAP DNA encoding pipeline.

The definitions below are a shallow embedding of the Rust sources
(base_sequence.rs, dna_rules.rs, pseudo_permutation.rs, lsh.rs, raptor.rs,
dg_client.rs, main.rs).  Conventions used throughout:

* A DNA strand (BaseSequence) is a List Base.
* Machine integers (usize, u8) are modelled as Nat; where wrap-around of a
  64-bit value can occur in the source, an explicit reduction modulo 2 ^ 64
  appears in the definition.
* f64 arithmetic on exactly-counted quantities (GC ratios, Jaccard distances)
  is modelled in Rat.  All concrete comparisons appearing in the theorems
  below are far from any rounding boundary of the corresponding f64 values.
* A Rust panic is modelled by an Option result (none = panic) or, inside an
  acceptance check, by the check not completing (so no insertion happens).
* External collaborators that are not part of this repository (the raptorq
  fountain-code crate, the thread rng, the TCP free-energy predictor) enter
  as function parameters; their contracts follow the specification.
-/

namespace RQPAP

/-- DNA bases as in base_sequence.rs; the repr(u8) discriminants are A=0, C=1,
G=2, T=3. -/
inductive Base where
  | A
  | C
  | G
  | T
deriving DecidableEq, Repr, Inhabited

open Base

/-- The two-bit ordinal of a base, i.e. its repr(u8) discriminant in the
source. -/
def ordOf : Base → Nat
  | A => 0
  | C => 1
  | G => 2
  | T => 3

/-- Predicate is_c_or_g from base_sequence.rs. -/
def is_c_or_g : Base → Bool
  | C => true
  | G => true
  | _ => false

/-- String form of a single base (to_string in the source). -/
def base_str : Base → String
  | A => "A"
  | G => "G"
  | T => "T"
  | C => "C"

/-- String form of a strand (BaseSequence::to_string in the source). -/
def strand_string (s : List Base) : String :=
  s.foldl (fun acc b => acc ++ base_str b) ""

/-- GC content, gc_of in base_sequence.rs: the number of C or G bases divided
by the length.  The source divides two f64 values; the exact ratio is modelled
in Rat, written with mkRat so that it evaluates inside the kernel.  For an
empty slice the source produces NaN, which fails every order comparison; the
Rat value mkRat 0 0 = 0 fails the same comparisons in satisfy_gc_hp_rules. -/
def gc_of (s : List Base) : Rat :=
  mkRat ((s.filter (fun c => is_c_or_g c)).length : Int) s.length

/-- Loop body of longest_hp from base_sequence.rs: walks the strand comparing
each base to its predecessor, keeping the current run length and the longest
finished run. -/
def longest_hp_go : List Base → Base → Nat → Nat → Nat
  | [], _, current, longest => Nat.max current longest
  | b :: rest, prev, current, longest =>
    if prev = b then longest_hp_go rest b (current + 1) longest
    else longest_hp_go rest b 1 (Nat.max current longest)

/-- longest_hp from base_sequence.rs.  Like the source it returns 1 on the
empty strand (the loop never runs and max(1,1) is returned). -/
def longest_hp (s : List Base) : Nat :=
  match s with
  | [] => Nat.max 1 1
  | b :: rest => longest_hp_go rest b 1 1

/-- The list of all length-k windows of a strand: the loop body of k_mers in
base_sequence.rs, producing windows at offsets 0 .. len - k. -/
def k_mers_of (s : List Base) (k : Nat) : List (List Base) :=
  (List.range (1 + s.length - k)).map (fun i => (s.drop i).take k)

/-- k_mers from base_sequence.rs; the panic when k exceeds the length is
modelled as none. -/
def k_mers (s : List Base) (k : Nat) : Option (List (List Base)) :=
  if s.length < k then none else some (k_mers_of s k)

/-- k_mers_set from base_sequence.rs; the HashSet of windows is modelled as a
Finset and the panic when k exceeds the length as none. -/
def k_mers_set (s : List Base) (k : Nat) : Option (Finset (List Base)) :=
  if s.length < k then none else some (k_mers_of s k).toFinset

/-- jaccard_distance_arc from base_sequence.rs: one minus the ratio of the
intersection size to the union size of the two k-mer sets.  A panic inside
either k_mers_set call is modelled as none.  The value is written as the
single exact rational mkRat (union - intersection) union, which equals
1 - intersection / union whenever the union is nonempty (always the case when
both k_mers_set calls succeed; see the jaccard precondition theorem below);
this form evaluates inside the kernel. -/
def jaccard_distance_arc (s t : List Base) (k : Nat) : Option Rat :=
  match k_mers_set s k, k_mers_set t k with
  | some ms, some ts =>
      some (mkRat (((ms ∪ ts).card - (ms ∩ ts).card : Nat) : Int) (ms ∪ ts).card)
  | _, _ => none

/-- satisfy_gc_hp_rules from dna_rules.rs with MIN_GC_CONTENT = 0.40 and
MAX_GC_CONTENT = 0.60. -/
def satisfy_gc_hp_rules (s : List Base) (max_hp_len : Nat) : Bool :=
  decide (mkRat 2 5 ≤ gc_of s) && decide (gc_of s ≤ mkRat 3 5)
    && decide (longest_hp s ≤ max_hp_len)

/-- Loop of search_count_of from base_sequence.rs.  The state is the window
start, the total count, the current consecutive count and the maximal
consecutive count; the window end is start plus the needle length.  The fuel
argument only bounds the recursion; since the start strictly increases on a
nonempty needle, fuel source.length + 1 is never exhausted in the uses below
(on an empty needle the source loops forever). -/
def search_count_go (src needle : List Base) :
    Nat → Nat → Nat → Nat → Nat → Nat × Nat
  | 0, _, count, _, maxcc => (count, maxcc)
  | fuel + 1, start, count, cc, maxcc =>
    if start + needle.length < src.length then
      if (src.drop start).take needle.length = needle then
        search_count_go src needle fuel (start + needle.length) (count + 1)
          (cc + 1) (Nat.max maxcc (cc + 1))
      else
        search_count_go src needle fuel (start + 1) count 0 (Nat.max maxcc 0)
    else (count, maxcc)

/-- search_count_of from base_sequence.rs.  Note the loop condition of the
source is end strictly less than the source length, so the window ending
exactly at the end of the source is never examined. -/
def search_count_of (source needle : List Base) (consecutive : Bool) : Nat :=
  if source.length < needle.length then 0
  else
    let r := search_count_go source needle (source.length + 1) 0 0 0 0
    if consecutive then r.2 else r.1

/-- Modelled from the spec: the matching loop of search_count as the
specification describes it, examining every window of the source including
the one ending exactly at the source end (loop condition end less than or
equal to the length).  Used only to compare the source behaviour against the
specified behaviour. -/
def search_count_spec_go (src needle : List Base) :
    Nat → Nat → Nat → Nat → Nat → Nat × Nat
  | 0, _, count, _, maxcc => (count, maxcc)
  | fuel + 1, start, count, cc, maxcc =>
    if start + needle.length ≤ src.length then
      if (src.drop start).take needle.length = needle then
        search_count_spec_go src needle fuel (start + needle.length) (count + 1)
          (cc + 1) (Nat.max maxcc (cc + 1))
      else
        search_count_spec_go src needle fuel (start + 1) count 0 (Nat.max maxcc 0)
    else (count, maxcc)

/-- Modelled from the spec: search_count examining every window (see
search_count_spec_go). -/
def search_count_spec (source needle : List Base) (consecutive : Bool) : Nat :=
  if source.length < needle.length then 0
  else
    let r := search_count_spec_go source needle (source.length + 1) 0 0 0 0
    if consecutive then r.2 else r.1

/-! Pseudo permutations (pseudo_permutation.rs). -/

/-- The tuple (m, p, a, b) of pseudo_permutation.rs. -/
structure PseudoPermutation where
  m : Nat
  p : Nat
  a : Nat
  b : Nat
deriving DecidableEq, Repr, Inhabited

/-- Fuel-driven computation of the integer square root, so that concrete
values reduce inside the kernel; proved equal to Nat.sqrt below. -/
def isqrt_go (n : Nat) : Nat → Nat → Nat
  | 0, k => k
  | fuel + 1, k => if (k + 1) * (k + 1) ≤ n then isqrt_go n fuel (k + 1) else k

/-- Executable integer square root; proved equal to Nat.sqrt below. -/
def isqrt (n : Nat) : Nat :=
  isqrt_go n n 0

/-- The list of trial divisors examined by is_odd_number_also_prime in the
source: the odd numbers from 3 up to the integer square root of p.  The
source computes the square root by casting to f64; for every value of p
reached in this development the f64 square root truncates to the integer
square root. -/
def trial_divisors (p : Nat) : List Nat :=
  List.range' 3 ((isqrt p - 1) / 2) 2

/-- is_odd_number_also_prime from pseudo_permutation.rs: trial division of p
by every odd number from 3 up to the square root of p. -/
def is_odd_number_also_prime (p : Nat) : Bool :=
  (trial_divisors p).all (fun n => p % n != 0)

/-- The stepping loop of next_prime from pseudo_permutation.rs: starting at
an odd candidate, step by 2 until the trial division passes.  The fuel
argument only bounds the recursion; the adequacy theorem below shows via the
Bertrand postulate that the fuel chosen in next_prime is never exhausted for
arguments of at least 2. -/
def next_prime_go (fuel p : Nat) : Nat :=
  match fuel with
  | 0 => p
  | fuel + 1 => if is_odd_number_also_prime p then p else next_prime_go fuel (p + 2)

/-- next_prime from pseudo_permutation.rs: starting at the least odd number
strictly above n, step by 2 until the trial division passes. -/
def next_prime (n : Nat) : Nat :=
  next_prime_go (n + 2) (if (n + 1) % 2 == 0 then n + 2 else n + 1)

/-- new_from_p from pseudo_permutation.rs.  The two calls of
rng.gen_range(0..p) are passed in as ra and rb; the panic when p_1 is below m
is modelled as none. -/
def new_from_p (m p_1 ra rb : Nat) : Option PseudoPermutation :=
  if p_1 < m then none
  else some { m := m, p := next_prime p_1, a := 1 + ra, b := 1 + rb }

/-- apply from pseudo_permutation.rs: ((a * x + b) mod p) mod m, with the
two usize operations a * x and + b wrapping at 2 ^ 64 as in the source. -/
def PseudoPermutation.apply (pp : PseudoPermutation) (x : Nat) : Nat :=
  ((pp.a * x % 2 ^ 64 + pp.b) % 2 ^ 64) % pp.p % pp.m

/-! Locality sensitive hashing (lsh.rs). -/

/-- The MinHash value 2 ^ 64 - 1, the usize::MAX initial accumulator of
min_hashes in lsh.rs. -/
def usize_max : Nat := 2 ^ 64 - 1

/-- initial_row_id from lsh.rs: the k-mer identifier.  For each position i the
ordinal of the base is multiplied by 4 ^ i and added; positions holding A
(ordinal 0) are skipped by the continue of the source.  Both the power and
the accumulation are usize operations, so they wrap at 2 ^ 64; no wrap occurs
for k-mers of length at most 31 (see the MinHash reference theorem). -/
def initial_row_id (seq : List Base) : Nat :=
  (List.range seq.length).foldl
    (fun id i =>
      let order := ordOf (seq.getD i Base.A)
      if order = 0 then id else (id + order * (4 ^ i % 2 ^ 64)) % 2 ^ 64)
    0

/-- The identifier of a k-mer as the specification states it: the plain sum
of ordinal times 4 ^ i over the positions whose base is not A. -/
def spec_row_id (seq : List Base) : Nat :=
  (List.range seq.length).foldl
    (fun id i =>
      let order := ordOf (seq.getD i Base.A)
      if order = 0 then id else id + order * 4 ^ i)
    0

/-- The inner loop of min_hashes from lsh.rs for one permutation: fold the
permuted identifiers keeping the minimum, short-circuiting to 0 as soon as a
permuted identifier is 0. -/
def min_hash_loop (pp : PseudoPermutation) : List Nat → Nat → Nat
  | [], acc => acc
  | x :: rest, acc =>
    let h := pp.apply x
    if h = 0 then 0
    else min_hash_loop pp rest (if h < acc then h else acc)

/-- The static configuration of an LSH instance from lsh.rs: the k-mer
length, the band size r / b, and the r pseudo permutations. -/
structure LSHConfig where
  k : Nat
  band_size : Nat
  perms : List PseudoPermutation

/-- min_hashes from lsh.rs: for each permutation, the minimum permuted
identifier over all k-mers of the strand, starting from usize::MAX and
short-circuiting on 0.  The panic of k_mers when k exceeds the strand length
is modelled as none. -/
def min_hashes (cfg : LSHConfig) (s : List Base) : Option (List Nat) :=
  if s.length < cfg.k then none
  else some (cfg.perms.map
    (fun pp => min_hash_loop pp ((k_mers_of s cfg.k).map initial_row_id) usize_max))

/-- signatures from lsh.rs: for each band, the concatenation of the decimal
string forms of the band_size MinHash values of that band. -/
def signatures (cfg : LSHConfig) (num_bands : Nat) (s : List Base) :
    Option (List String) :=
  (min_hashes cfg s).map (fun mhs =>
    (List.range num_bands).map (fun band =>
      (List.range cfg.band_size).foldl
        (fun sb m => sb ++ toString (mhs.getD (m + band * cfg.band_size) 0)) ""))

/-- One band of the LSH state: the HashMap from signature strings to strand
sets, modelled as an association list of signature and strand list (the
HashSet deduplication is kept by the membership test in band_insert). -/
def band_insert (band : List (String × List (List Base))) (sig : String)
    (s : List Base) : List (String × List (List Base)) :=
  match band.lookup sig with
  | none => band ++ [(sig, [s])]
  | some _ =>
      band.map (fun kv =>
        if kv.1 = sig then (kv.1, if s ∈ kv.2 then kv.2 else kv.2 ++ [s]) else kv)

/-- insert from lsh.rs: compute the signatures and add the strand to every
band under its signature.  On a signature panic (k larger than the strand)
the state is returned unchanged; the source would abort instead, inserting
nothing either way. -/
def lsh_insert (cfg : LSHConfig) (st : List (List (String × List (List Base))))
    (s : List Base) : List (List (String × List (List Base))) :=
  match signatures cfg st.length s with
  | none => st
  | some sigs => List.zipWith (fun band sig => band_insert band sig s) st sigs

/-- similar_seqs from lsh.rs: the union over all bands of the sets stored
under the band signature of the query; absent keys contribute nothing.  The
HashSet union is modelled by list concatenation, which has the same members.
On a signature panic the result is empty; the source would abort instead. -/
def similar_seqs (cfg : LSHConfig) (st : List (List (String × List (List Base))))
    (s : List Base) : List (List Base) :=
  match signatures cfg st.length s with
  | none => []
  | some sigs =>
      (List.range st.length).foldl
        (fun acc band =>
          match (st.getD band []).lookup (sigs.getD band "") with
          | some set => acc ++ set
          | none => acc) []

/-! Pipeline acceptance (main.rs). -/

/-- pooled_dist_check from main.rs: the candidate passes when no element of
the compared collection is closer than min under the Jaccard distance with
k-mer length k.  Below the pooling trigger of 2000 the source checks
sequentially with short-circuit; above it the checks are fanned out but
accept or reject by exactly the same criterion, so one definition covers
both branches.  A Jaccard panic (a strand shorter than k) is modelled as the
check not completing, hence not accepting. -/
def pooled_dist_check (seq : List Base) (candidates : List (List Base))
    (min : Rat) (k : Nat) : Bool :=
  candidates.all (fun c =>
    match jaccard_distance_arc seq c k with
    | some d => decide (min ≤ d)
    | none => false)

/-- The accepted-strand corpus under the mixed and naive encoding modes of
encode_file in main.rs, as a transition system.  A producer holding a
candidate c first checks it against a snapshot prefix of the corpus taken
under the read lock, then under the write lock re-checks only the strands
appended since the snapshot (is_inserted_consistent in main.rs) and appends.
The naive mode additionally checks probe distances, which only restricts the
accepted candidates further and does not affect this corpus invariant. -/
inductive mn_reachable (k : Nat) (min_dist : Rat) : List (List Base) → Prop where
  | nil : mn_reachable k min_dist []
  | accept (s : List (List Base)) (snap : List (List Base)) (c : List Base)
      (hre : mn_reachable k min_dist s)
      (hpre : snap <+: s)
      (h1 : pooled_dist_check c snap min_dist k = true)
      (h2 : pooled_dist_check c (s.drop snap.length) min_dist k = true) :
      mn_reachable k min_dist (s ++ [c])

/-- The accepted-strand corpus under the LSH encoding mode of encode_file in
main.rs, as a transition system over the LSH state: a candidate is accepted
when every strand returned by similar_seqs on the accepted-strand LSH is at
Jaccard distance at least min_dist, and is then inserted into the LSH.  The
second component accumulates the accepted strands in acceptance order. -/
inductive lsh_reachable (cfg : LSHConfig) (num_bands : Nat) (min_dist : Rat) :
    List (List (String × List (List Base))) → List (List Base) → Prop where
  | nil : lsh_reachable cfg num_bands min_dist (List.replicate num_bands []) []
  | accept (st : List (List (String × List (List Base))))
      (acc : List (List Base)) (c : List Base)
      (hre : lsh_reachable cfg num_bands min_dist st acc)
      (hc : pooled_dist_check c (similar_seqs cfg st c) min_dist cfg.k = true) :
      lsh_reachable cfg num_bands min_dist (lsh_insert cfg st c) (acc ++ [c])

/-! The fountain-code encoder (raptor.rs). -/

/-- map_byte_to_base from raptor.rs: transmute of a two-bit value into a
base. -/
def map_byte_to_base (bits : Nat) : Base :=
  match bits % 4 with
  | 0 => Base.A
  | 1 => Base.C
  | 2 => Base.G
  | _ => Base.T

/-- map_byte_to_bases from raptor.rs: a byte becomes four bases, two bits per
base, highest bits first. -/
def map_byte_to_bases (b : Nat) : List Base :=
  [map_byte_to_base (b / 64 % 4), map_byte_to_base (b / 16 % 4),
   map_byte_to_base (b / 4 % 4), map_byte_to_base (b % 4)]

/-- map_half_byte_to_bases from raptor.rs: two bases carrying bits 3..2 and
bits 1..0 of the byte; the upper four bits of the byte are not encoded. -/
def map_half_byte_to_bases (b : Nat) : List Base :=
  [map_byte_to_base (b / 4 % 4), map_byte_to_base (b % 4)]

/-- map_bytes_to_base_sequence from raptor.rs. -/
def map_bytes_to_base_sequence (bytes : List Nat) : List Base :=
  bytes.flatMap map_byte_to_bases

/-- finalize_encoding from raptor.rs: prepend the two header base pairs for
the data length byte and the packets count byte. -/
def finalize_encoding (s : List Base) (data_len packets_count : Nat) : List Base :=
  map_half_byte_to_bases data_len ++ map_half_byte_to_bases packets_count ++ s

/-- Modelled from the spec: decoding the four header bases of an Info-DNA
strand back into the data length byte and the packets count byte, two bits
per base, high bits first (no decoder exists in this repository). -/
def header_decode (s : List Base) : Nat × Nat :=
  (ordOf (s.getD 0 Base.A) * 4 + ordOf (s.getD 1 Base.A),
   ordOf (s.getD 2 Base.A) * 4 + ordOf (s.getD 3 Base.A))

/-- The PacketsResult enumeration from raptor.rs. -/
inductive PacketsResult where
  | found (s : List Base) (packets_count : Nat)
  | rulesNotSatisfied (s : List Base) (packets_count : Nat)
  | notDecodable
  | overheadTooBig (missing : Nat)
deriving DecidableEq

/-- Loop of combine_packets_to_strand from raptor.rs.  The packet pool is a
list of (DNA mapping, serialized bytes) pairs; decodes is the behaviour of
the fresh raptorq Decoder, modelled from the spec as a function from the
packets fed so far to decodability.  The state carries the fed packets, the
concatenated strand, the count of packets used and the running overhead
(starting at -1 as in the source).  Casts of the used count to u8 at the
return sites reduce modulo 256 as in the source. -/
def combine_go (packets : List (List Base × List Nat))
    (decodes : List (List Nat) → Bool) (overhead : Nat)
    (strand_is_ok_func : List Base → Bool) :
    List Nat → List (List Nat) → List Base → Nat → Int → PacketsResult
  | [], _, _, _, _ => PacketsResult.notDecodable
  | index :: rest, fed, dna, used, cur =>
    let pair := packets.getD index ([], [])
    let used2 := used + 1
    let fed2 := fed ++ [pair.2]
    let dna2 := dna ++ pair.1
    if decodes fed2 then
      let cur2 := cur + 1
      let missing : Int := ((overhead : Int) - cur2) - ((packets.length - used2 : Nat) : Int)
      if 0 < missing then PacketsResult.overheadTooBig missing.toNat
      else if (overhead : Int) ≤ cur2 then
        if strand_is_ok_func dna2 then PacketsResult.found dna2 (used2 % 256)
        else PacketsResult.rulesNotSatisfied dna2 (used2 % 256)
      else combine_go packets decodes overhead strand_is_ok_func rest fed2 dna2 used2 cur2
    else combine_go packets decodes overhead strand_is_ok_func rest fed2 dna2 used2 cur

/-- combine_packets_to_strand from raptor.rs, fed the packet indices in the
given order. -/
def combine_packets_to_strand (packets : List (List Base × List Nat))
    (decodes : List (List Nat) → Bool) (overhead : Nat) (index_order : List Nat)
    (strand_is_ok_func : List Base → Bool) : PacketsResult :=
  combine_go packets decodes overhead strand_is_ok_func index_order [] [] 0 (-1)

/-- generate_packets from raptor.rs: the repair packets from the given ESI
are mapped to DNA (skipping the first three serialized bytes) and kept when
they satisfy the per-packet rule.  The repair-packet generator of the
raptorq crate is modelled from the spec as a function from the starting ESI
and count to the serialized packets. -/
def generate_packets (repair : Nat → Nat → List (List Nat))
    (packets_per_block from_repair_esi : Nat)
    (rules_func : List Base → Bool) : List (List Base × List Nat) :=
  (repair from_repair_esi packets_per_block).filterMap (fun p =>
    let dna := map_bytes_to_base_sequence (p.drop 3)
    if rules_func dna then some (dna, p) else none)

/-- The outcome of the inner packet-combination loop of
encode_to_dna_with_rules: either the function returns (a found strand that
passed the dg check), or the loop breaks asking for more packets, or the
iteration count runs out.  The break and run-out cases carry the last
candidate strand, its packet count and the new rng position. -/
inductive InnerResult where
  | done (s : List Base) (packets_count : Nat)
  | breakOverhead (missing : Nat) (last : List Base) (last_count rng : Nat)
  | breakNotDecodable (last : List Base) (last_count rng : Nat)
  | ranOut (last : List Base) (last_count rng : Nat)
deriving DecidableEq

/-- The inner loop of encode_to_dna_with_rules in raptor.rs: up to the size
of the good-packet pool, pick the next random order, combine packets, and
either return (Found and dg check passes), break out for more packets, or
remember the last candidate and continue.  The random orders drawn from the
thread rng are modelled from the spec as a function from a draw counter to
the drawn index order. -/
def inner_loop (good : List (List Base × List Nat))
    (decodes : List (List Nat) → Bool) (overhead : Nat)
    (strand_rule dg_check : List Base → Bool) (orders : Nat → List Nat) :
    Nat → Nat → List Base → Nat → InnerResult
  | 0, rng, last, last_count => InnerResult.ranOut last last_count rng
  | iters + 1, rng, last, last_count =>
    match combine_packets_to_strand good decodes overhead (orders rng) strand_rule with
    | PacketsResult.found s cnt =>
        if dg_check s then InnerResult.done s cnt
        else inner_loop good decodes overhead strand_rule dg_check orders iters (rng + 1) s cnt
    | PacketsResult.overheadTooBig missing =>
        InnerResult.breakOverhead missing last last_count (rng + 1)
    | PacketsResult.notDecodable =>
        InnerResult.breakNotDecodable last last_count (rng + 1)
    | PacketsResult.rulesNotSatisfied s cnt =>
        inner_loop good decodes overhead strand_rule dg_check orders iters (rng + 1) s cnt

/-- The black-box collaborators and parameters of encode_to_dna_with_rules:
the payload bytes, the initial packets per block, the loop bound, the decode
overhead, the three predicates of the source, and the spec-modelled
behaviours of the raptorq encoder (repair), the raptorq decoder (decodes)
and the thread rng (orders). -/
structure EncArgs where
  data : List Nat
  packets_per_block : Nat
  max_block_encode_loops : Nat
  overhead : Nat
  gc_and_hp_check : List Base → Bool
  strand_rule_no_dg : List Base → Bool
  dg_check : List Base → Bool
  repair : Nat → Nat → List (List Nat)
  decodes : List (List Nat) → Bool
  orders : Nat → List Nat

/-- The mutable state of the outer loop of encode_to_dna_with_rules:
the loop counter, the packet request size, the next ESI, the good-packet
pool, the last candidate strand with its packet count, and the rng draw
position. -/
structure EncState where
  num : Nat
  packets_count : Nat
  from_esi : Nat
  good : List (List Base × List Nat)
  last_strand : List Base
  last_count : Nat
  rng : Nat

/-- The initial state of the outer loop of encode_to_dna_with_rules:
counter 0, packets_count = packets_per_block, ESI 0, empty pool, empty last
strand. -/
def enc_init (A : EncArgs) : EncState :=
  { num := 0, packets_count := A.packets_per_block, from_esi := 0, good := [],
    last_strand := [], last_count := 0, rng := 0 }

/-- One iteration of the outer loop of encode_to_dna_with_rules in
raptor.rs: generate fresh packets, extend the pool, run the inner loop, and
either return the found strand or build the state for the next iteration
(advancing the ESI to last_esi + 1 and adjusting packets_count by the break
reason). -/
def encode_step (A : EncArgs) (s : EncState) : EncState ⊕ (List Base × Nat) :=
  let last_esi := s.from_esi + s.packets_count
  let good := s.good ++ generate_packets A.repair s.packets_count s.from_esi A.gc_and_hp_check
  match inner_loop good A.decodes A.overhead A.strand_rule_no_dg A.dg_check A.orders
      good.length s.rng s.last_strand s.last_count with
  | InnerResult.done str cnt => Sum.inr (str, cnt)
  | InnerResult.breakOverhead missing last last_count rng =>
      Sum.inl { num := s.num + 1,
                packets_count := s.packets_count + missing * A.packets_per_block + 1,
                from_esi := last_esi + 1, good := good,
                last_strand := last, last_count := last_count, rng := rng }
  | InnerResult.breakNotDecodable last last_count rng =>
      Sum.inl { num := s.num + 1, packets_count := s.packets_count + A.packets_per_block,
                from_esi := last_esi + 1, good := good,
                last_strand := last, last_count := last_count, rng := rng }
  | InnerResult.ranOut last last_count rng =>
      Sum.inl { num := s.num + 1, packets_count := s.packets_count,
                from_esi := last_esi + 1, good := good,
                last_strand := last, last_count := last_count, rng := rng }

/-- The outer while loop of encode_to_dna_with_rules, recursing on the
number of remaining iterations (max_block_encode_loops minus the counter,
which encode_step increments by exactly one); on exhaustion the last
candidate and its count are returned.  The loop-iteration theorem below
proves this gas-indexed rendering equal to iterating the literally guarded
loop body. -/
def encode_loop_aux (A : EncArgs) : Nat → EncState → List Base × Nat
  | 0, s => (s.last_strand, s.last_count)
  | gas + 1, s =>
    match encode_step A s with
    | Sum.inr r => r
    | Sum.inl s2 => encode_loop_aux A gas s2

/-- encode_to_dna_with_rules from raptor.rs (the returned strand; the two
elapsed-time components of the source return value are real time and are not
modelled).  Both return paths finalize with the data length cast to u8. -/
def encode_to_dna_with_rules (A : EncArgs) : List Base :=
  let r := encode_loop_aux A (A.max_block_encode_loops - (enc_init A).num) (enc_init A)
  finalize_encoding r.1 (A.data.length % 256) r.2

/-- The literally guarded body of the outer while loop of
encode_to_dna_with_rules: on a running state, test the loop condition
(counter below max_block_encode_loops) and either take one encode_step or
exit with the last candidate; a finished result is left unchanged. -/
def loop_body (A : EncArgs) (x : EncState ⊕ (List Base × Nat)) :
    EncState ⊕ (List Base × Nat) :=
  match x with
  | Sum.inr r => Sum.inr r
  | Sum.inl s =>
      if s.num < A.max_block_encode_loops then encode_step A s
      else Sum.inr (s.last_strand, s.last_count)

/-- Iteration of the guarded loop body. -/
def loop_iter (A : EncArgs) : Nat → (EncState ⊕ (List Base × Nat)) →
    EncState ⊕ (List Base × Nat)
  | 0, x => x
  | n + 1, x => loop_iter A n (loop_body A x)

/-! The free-energy predictor client (dg_client.rs). -/

/-- The observable outcome of one write-then-read round trip on a predictor
channel: either the bytes of an IEEE-754 little-endian f32 response were
read, or the error branch produced the f32 value 0.0, whose little-endian
bytes are (0,0,0,0). -/
inductive DgCallResult where
  | value (b0 b1 b2 b3 : Nat)
  | panicked
deriving DecidableEq

/-- The observable channel behaviour of one round trip: whether write_all
succeeds (its Result is discarded by the source either way), whether flush
succeeds, and the four response bytes of read_exact when it succeeds. -/
structure RoundTripIO where
  write_ok : Bool
  flush_ok : Bool
  read_bytes : Option (Nat × Nat × Nat × Nat)

/-- The std library implements Write::flush for TcpStream as a no-op that
always returns Ok, so the flush of a predictor channel cannot fail. -/
def tcp_stream_flush_ok : Bool := true

/-- send_seq_receive_dg_arc_lock_free from dg_client.rs: write the request
(the Result of write_all is discarded), unwrap the flush (a flush error
would panic, but see tcp_stream_flush_ok), then read exactly four bytes;
a read error yields the f32 value 0.0. -/
def send_seq_receive_dg_arc_lock_free (io : RoundTripIO) : DgCallResult :=
  if io.flush_ok = false then DgCallResult.panicked
  else
    match io.read_bytes with
    | some (b0, b1, b2, b3) => DgCallResult.value b0 b1 b2 b3
    | none => DgCallResult.value 0 0 0 0

/-! FASTA output of the orchestrator (main.rs, base_sequence.rs). -/

/-- append_to_fasta_file_with_caption_arc from base_sequence.rs: the entry
appended to the file is an optional separating newline (absent for the first
entry), the caption, a newline, and the strand letters. -/
def fasta_entry (caption : String) (seq : List Base) (is_first_entry : Bool) : String :=
  (if is_first_entry then "" else "\n") ++ caption ++ "\n" ++ strand_string seq

/-- The write loop of encode_pipeline in main.rs: for done_id = 1, 2, ... the
next completion message (line.0 as sent by encode_file, and the strand) is
received from the channel and appended to the FASTA file with caption
obtained from the received id plus one; messages are consumed in arrival
order. -/
def write_loop : List (Nat × List Base) → Nat → String → String
  | [], _, file => file
  | (line_id, seq) :: rest, done_id, file =>
      let caption := ">" ++ toString (line_id + 1)
      write_loop rest (done_id + 1) (file ++ fasta_entry caption seq (done_id == 1))

/-- The FASTA file content produced by the write loop of encode_pipeline for
a given arrival order of completion messages. -/
def pipeline_fasta (msgs : List (Nat × List Base)) : String :=
  write_loop msgs 1 ""

/-! Helper theorems. -/

theorem isqrt_go_eq (n : Nat) :
    ∀ fuel k, k * k ≤ n → Nat.sqrt n ≤ k + fuel → isqrt_go n fuel k = Nat.sqrt n := by
  intro fuel
  induction fuel with
  | zero =>
    intro k hk hle
    have := Nat.le_sqrt.mpr hk
    simpa [isqrt_go] using by omega
  | succ fuel ih =>
    intro k hk hle
    unfold isqrt_go
    split
    · exact ih (k + 1) (by assumption) (by omega)
    · have h1 : Nat.sqrt n < k + 1 := Nat.sqrt_lt.mpr (by omega)
      have h2 := Nat.le_sqrt.mpr hk
      omega

/-- The executable square root agrees with Nat.sqrt. -/
theorem isqrt_eq (n : Nat) : isqrt n = Nat.sqrt n :=
  isqrt_go_eq n n 0 (by simp) (by simpa using Nat.sqrt_le_self n)

/-- Every prime passes the trial division of is_odd_number_also_prime. -/
theorem is_odd_number_also_prime_of_prime {q : Nat} (hq : Nat.Prime q) :
    is_odd_number_also_prime q = true := by
  unfold is_odd_number_also_prime
  rw [List.all_eq_true]
  intro d hd
  rw [trial_divisors, isqrt_eq, List.mem_range'] at hd
  obtain ⟨i, hi, rfl⟩ := hd
  rw [bne_iff_ne]
  intro hmod
  have hdvd : (3 + 2 * i) ∣ q := Nat.dvd_of_mod_eq_zero hmod
  have h3 : 3 + 2 * i ≠ 1 := by omega
  have heq : 3 + 2 * i = q := (hq.eq_one_or_self_of_dvd _ hdvd).resolve_left h3
  have hlt : Nat.sqrt q < q := Nat.sqrt_lt_self hq.one_lt
  omega

/-- An odd number of at least 3 that passes the trial division of
is_odd_number_also_prime is prime. -/
theorem prime_of_is_odd_number_also_prime {q : Nat}
    (h3 : 3 ≤ q) (hodd : q % 2 = 1)
    (hpass : is_odd_number_also_prime q = true) : Nat.Prime q := by
  rw [Nat.prime_def_le_sqrt]
  refine ⟨by omega, ?_⟩
  intro d hd2 hdsqrt hdvd
  have hmod : q % d = 0 := Nat.mod_eq_zero_of_dvd hdvd
  by_cases hdodd : d % 2 = 1
  · -- an odd divisor in range contradicts the trial division
    unfold is_odd_number_also_prime at hpass
    rw [List.all_eq_true] at hpass
    have hs3 : 3 ≤ Nat.sqrt q := by omega
    have hdmem : d ∈ trial_divisors q := by
      rw [trial_divisors, isqrt_eq, List.mem_range']
      exact ⟨(d - 3) / 2, by omega, by omega⟩
    have := hpass d hdmem
    rw [bne_iff_ne] at this
    exact this hmod
  · -- an even divisor would make q even, contradicting oddness
    have h2 : (2 : Nat) ∣ d := by omega
    have h2q : (2 : Nat) ∣ q := dvd_trans h2 hdvd
    omega

/-- The stepping loop, given enough fuel to reach a passing candidate,
returns the least prime greater than or equal to its odd starting point of at
least 3. -/
theorem next_prime_go_spec :
    ∀ fuel k, k % 2 = 1 → 3 ≤ k →
      (∃ j, j ≤ fuel ∧ is_odd_number_also_prime (k + 2 * j) = true) →
      Nat.Prime (next_prime_go fuel k) ∧ k ≤ next_prime_go fuel k ∧
        ∀ r, k ≤ r → Nat.Prime r → next_prime_go fuel k ≤ r := by
  intro fuel
  induction fuel with
  | zero =>
    intro k hk h3 hex
    obtain ⟨j, hj, hpass⟩ := hex
    have hj0 : j = 0 := by omega
    subst hj0
    simp only [Nat.mul_zero, Nat.add_zero] at hpass
    have hprime := prime_of_is_odd_number_also_prime h3 hk hpass
    exact ⟨by simpa [next_prime_go] using hprime, by simp [next_prime_go],
      fun r hr _ => by simpa [next_prime_go] using hr⟩
  | succ fuel ih =>
    intro k hk h3 hex
    unfold next_prime_go
    by_cases hpassk : is_odd_number_also_prime k = true
    · rw [if_pos hpassk]
      have hprime := prime_of_is_odd_number_also_prime h3 hk hpassk
      exact ⟨hprime, Nat.le_refl k, fun r hr _ => hr⟩
    · rw [if_neg hpassk]
      obtain ⟨j, hj, hpass⟩ := hex
      have hjpos : j ≠ 0 := by
        intro h
        subst h
        simp only [Nat.mul_zero, Nat.add_zero] at hpass
        exact hpassk hpass
      have hex2 : ∃ j2, j2 ≤ fuel ∧ is_odd_number_also_prime (k + 2 + 2 * j2) = true := by
        refine ⟨j - 1, by omega, ?_⟩
        have hshift : k + 2 + 2 * (j - 1) = k + 2 * j := by omega
        rw [hshift]
        exact hpass
      obtain ⟨hprime, hge, hmin⟩ := ih (k + 2) (by omega) (by omega) hex2
      refine ⟨hprime, by omega, ?_⟩
      intro r hr hrprime
      have hrodd : r % 2 = 1 := Nat.odd_iff.mp (hrprime.odd_of_ne_two (by omega))
      have hrk : r ≠ k := by
        intro h
        subst h
        exact hpassk (is_odd_number_also_prime_of_prime hrprime)
      exact hmin r (by omega) hrprime

/-- next_prime returns the least prime strictly greater than its argument,
for arguments of at least 2.  (Below 2 the loop of the source would also
skip the even prime 2; on argument 0 the trial division wrongly accepts 1,
exactly as the source does.) -/
theorem next_prime_spec (n : Nat) (hn : 2 ≤ n) :
    Nat.Prime (next_prime n) ∧ n < next_prime n ∧
      ∀ r, n < r → Nat.Prime r → next_prime n ≤ r := by
  have hodd : (if (n + 1) % 2 == 0 then n + 2 else n + 1) % 2 = 1 := by
    rcases Nat.mod_two_eq_zero_or_one (n + 1) with h | h
    · rw [if_pos (by simp [h])]
      omega
    · rw [if_neg (by simp [h])]
      omega
  have hgt : n < (if (n + 1) % 2 == 0 then n + 2 else n + 1) := by split <;> omega
  have hle2 : (if (n + 1) % 2 == 0 then n + 2 else n + 1) ≤ n + 2 := by split <;> omega
  set start := (if (n + 1) % 2 == 0 then n + 2 else n + 1) with hstart
  have hex : ∃ j, j ≤ n + 2 ∧ is_odd_number_also_prime (start + 2 * j) = true := by
    obtain ⟨q, hqprime, hqgt, hqle⟩ :=
      Nat.exists_prime_lt_and_le_two_mul start (by omega)
    have hqodd : q % 2 = 1 := Nat.odd_iff.mp (hqprime.odd_of_ne_two (by omega))
    refine ⟨(q - start) / 2, by omega, ?_⟩
    have hsum : start + 2 * ((q - start) / 2) = q := by omega
    rw [hsum]
    exact is_odd_number_also_prime_of_prime hqprime
  obtain ⟨hprime, hge, hmin⟩ := next_prime_go_spec (n + 2) start hodd (by omega) hex
  refine ⟨?_, ?_, ?_⟩
  · unfold next_prime
    rw [← hstart]
    exact hprime
  · unfold next_prime
    rw [← hstart]
    omega
  · intro r hr hrprime
    have hrodd : r % 2 = 1 := Nat.odd_iff.mp (hrprime.odd_of_ne_two (by omega))
    have hrstart : start ≤ r := by omega
    unfold next_prime
    rw [← hstart]
    exact hmin r hrstart hrprime

/-! Claim theorems. -/

/-- Claim C7: search_count advances the window by the needle length on a hit
and by one on a miss, but the loop condition of the source (end strictly
below the source length) skips the window ending exactly at the source end,
so on source ACACAC with needle AC and consecutive = true the source counts
only the first two matches and returns 2, not the claimed 3; the
specification loop over every window returns 3. -/
theorem C7_search_count_tail_window :
    search_count_of [A, C, A, C, A, C] [A, C] true = 2 ∧
      search_count_spec [A, C, A, C, A, C] [A, C] true = 3 := by
  decide

/-- Claim C2 counterexample: the header written by finalize_encoding keeps
only the low four bits of each byte (map_half_byte_to_bases maps bits 3..2
and 1..0), so the data-length byte 16 decodes from the header as 0 and the
claimed round trip (L, P) = (16, 1) fails. -/
theorem C2_counterexample :
    header_decode (finalize_encoding [] 16 1) = (0, 1) ∧
      ((0 : Nat), (1 : Nat)) ≠ ((16 : Nat), (1 : Nat)) := by
  decide

theorem ordOf_map_byte_to_base (n : Nat) : ordOf (map_byte_to_base n) = n % 4 := by
  have h : n % 4 = 0 ∨ n % 4 = 1 ∨ n % 4 = 2 ∨ n % 4 = 3 := by omega
  rcases h with h | h | h | h <;> simp [map_byte_to_base, h, ordOf]

/-- Claim C2 (amended): the strand returned by finalize_encoding is the
four-base header followed by the payload, and the header encodes only the
low four bits of the data length byte (bits 3..2 as the first base, bits
1..0 as the second) and of the packets count byte, so decoding the four
header bases recovers the two bytes reduced modulo 16 — exactly (L, P) only
when both bytes are below 16. -/
theorem C2_header_mod16 (L P : Nat) (s : List Base) :
    header_decode (finalize_encoding s L P) = (L % 16, P % 16) ∧
      finalize_encoding s L P
        = map_half_byte_to_bases L ++ map_half_byte_to_bases P ++ s := by
  refine ⟨?_, rfl⟩
  simp only [finalize_encoding, map_half_byte_to_bases, header_decode,
    List.cons_append, List.nil_append, List.getD_cons_zero, List.getD_cons_succ]
  rw [ordOf_map_byte_to_base, ordOf_map_byte_to_base,
    ordOf_map_byte_to_base, ordOf_map_byte_to_base]
  simp only [Prod.mk.injEq]
  exact ⟨by omega, by omega⟩

/-- Claim C4 counterexample: with two input lines whose workers send the
completion messages for line ids 2 and 1 in that arrival order, the first
FASTA entry written holds the strand of the second message sender, not of
input line one, so the entries are not in input-line order. -/
theorem C4_counterexample :
    pipeline_fasta [(2, [C]), (1, [A])] = ">3\nC\n>2\nA" ∧
      (">3\nC\n>2\nA" : String) ≠ ">2\nA\n>3\nC" := by
  constructor
  · rfl
  · decide

theorem write_loop_not_first (msgs : List (Nat × List Base)) :
    ∀ (d : Nat) (file : String), 2 ≤ d →
      write_loop msgs d file
        = String.intercalate.go file "\n"
            (msgs.map (fun m => ">" ++ toString (m.1 + 1) ++ "\n" ++ strand_string m.2)) := by
  induction msgs with
  | nil =>
    intro d file _
    simp [write_loop, String.intercalate.go]
  | cons m rest ih =>
    intro d file hd
    obtain ⟨line_id, seq⟩ := m
    have hdfalse : (d == 1) = false := by
      simp only [beq_eq_false_iff_ne, ne_eq]
      omega
    simp only [write_loop, List.map_cons, String.intercalate.go, hdfalse, fasta_entry,
      if_neg Bool.false_ne_true]
    rw [ih (d + 1) _ (by omega)]
    congr 1
    simp [String.append_assoc]

/-- Claim C4 (amended): the write loop of encode_pipeline emits the FASTA
entries in the order the completion messages arrive on the result channel,
each captioned with the received line id plus one; the file equals the
newline-intercalated entries of the arrival sequence, so the entries are in
input-line order only when completions happen to arrive in that order. -/
theorem C4_arrival_order (msgs : List (Nat × List Base)) :
    pipeline_fasta msgs
      = String.intercalate "\n"
          (msgs.map (fun m => ">" ++ toString (m.1 + 1) ++ "\n" ++ strand_string m.2)) := by
  cases msgs with
  | nil => rfl
  | cons m rest =>
    obtain ⟨line_id, seq⟩ := m
    show write_loop _ 1 "" = _
    simp only [write_loop, fasta_entry, if_pos rfl]
    rw [write_loop_not_first rest 2 _ (by omega)]
    simp only [List.map_cons, String.intercalate]
    congr 1

/-- Claim C6: on a predictor channel, the Result of write_all is discarded,
the flush cannot fail on a TcpStream (its std flush is a no-op returning Ok,
so the unwrap never fires), and a failing read_exact yields the f32 value
0.0 (little-endian bytes 0,0,0,0); hence the call always returns a value to
the caller — 0.0 whenever the round trip fails to deliver a response — and
never panics, for every combination of write and read outcomes. -/
theorem C6_dg_error_containment (io : RoundTripIO)
    (hflush : io.flush_ok = tcp_stream_flush_ok) :
    (∃ b0 b1 b2 b3, send_seq_receive_dg_arc_lock_free io = DgCallResult.value b0 b1 b2 b3) ∧
      send_seq_receive_dg_arc_lock_free io ≠ DgCallResult.panicked ∧
      (io.read_bytes = none →
        send_seq_receive_dg_arc_lock_free io = DgCallResult.value 0 0 0 0) := by
  have hft : io.flush_ok = true := by rw [hflush]; rfl
  unfold send_seq_receive_dg_arc_lock_free
  rw [hft]
  simp only [Bool.true_eq_false, if_false]
  cases hr : io.read_bytes with
  | none => exact ⟨⟨0, 0, 0, 0, rfl⟩, by simp, fun _ => rfl⟩
  | some b =>
    obtain ⟨b0, b1, b2, b3⟩ := b
    exact ⟨⟨b0, b1, b2, b3, rfl⟩, by simp, fun h => by simp at h⟩

/-- Claim C6 witness: a round trip whose write failed and whose read
delivered nothing returns the f32 value 0.0 and does not panic. -/
theorem C6_witness :
    send_seq_receive_dg_arc_lock_free ⟨false, true, none⟩ = DgCallResult.value 0 0 0 0 ∧
      send_seq_receive_dg_arc_lock_free ⟨false, true, none⟩ ≠ DgCallResult.panicked := by
  obtain ⟨_, hnp, hzero⟩ := C6_dg_error_containment ⟨false, true, none⟩ rfl
  exact ⟨hzero rfl, hnp⟩

/-- Claim C8 counterexample: 5 is itself prime and new_from_p(4, 5) stores
p = next_prime(5) = 7, not 5, so p is not the smallest prime greater than or
equal to p0. -/
theorem C8_counterexample :
    new_from_p 4 5 0 0 = some { m := 4, p := 7, a := 1, b := 1 } ∧
      Nat.Prime 5 ∧ 5 ≤ 5 ∧ (7 : Nat) ≠ 5 := by
  refine ⟨by decide, by norm_num, by omega, by omega⟩

/-- Claim C8 (amended): for p0 at least max(m, 2), new_from_p(m, p0) stores
as p the smallest prime strictly greater than p0 (so when p0 is itself prime
the stored p is the next prime after it, not p0), and a and b are one plus a
sample from 0..p, hence lie in 1..p. -/
theorem C8_next_prime_strict (m p_1 ra rb : Nat) (hm : m ≤ p_1) (h2 : 2 ≤ p_1) :
    ∃ pp, new_from_p m p_1 ra rb = some pp ∧
      pp.p = next_prime p_1 ∧ Nat.Prime pp.p ∧ p_1 < pp.p ∧
      (∀ r, p_1 < r → r < pp.p → ¬ Nat.Prime r) ∧
      pp.a = 1 + ra ∧ pp.b = 1 + rb ∧
      (ra < pp.p → 1 ≤ pp.a ∧ pp.a ≤ pp.p) ∧
      (rb < pp.p → 1 ≤ pp.b ∧ pp.b ≤ pp.p) := by
  obtain ⟨hprime, hgt, hmin⟩ := next_prime_spec p_1 h2
  refine ⟨{ m := m, p := next_prime p_1, a := 1 + ra, b := 1 + rb }, ?_, rfl, hprime, hgt,
    ?_, rfl, rfl, ?_, ?_⟩
  · unfold new_from_p
    rw [if_neg (by omega)]
  · intro r hr hrlt hrprime
    dsimp only at hrlt
    exact absurd (hmin r hr hrprime) (by omega)
  · intro h
    dsimp only at h ⊢
    exact ⟨by omega, by omega⟩
  · intro h
    dsimp only at h ⊢
    exact ⟨by omega, by omega⟩

/-- Claim C8 witness: at m = 4, p0 = 5 with both rng samples 0 the stored
tuple is (4, 7, 1, 1); 7 is prime, is above 5, and no number strictly
between 5 and 7 is prime. -/
theorem C8_witness :
    new_from_p 4 5 0 0 = some { m := 4, p := 7, a := 1, b := 1 } ∧
      Nat.Prime 7 ∧ (∀ r, 5 < r → r < 7 → ¬ Nat.Prime r) ∧
      (1 : Nat) ≤ 1 ∧ (1 : Nat) ≤ 7 := by
  obtain ⟨pp, heq, hp, hprime, hgt, hmin, ha, hb, har, hbr⟩ :=
    C8_next_prime_strict 4 5 0 0 (by omega) (by omega)
  have hp7 : next_prime 5 = 7 := by decide
  rw [hp7] at hp
  have hpp : pp = { m := 4, p := 7, a := 1, b := 1 } := by
    have : new_from_p 4 5 0 0 = some { m := 4, p := 7, a := 1, b := 1 } := by decide
    rw [this] at heq
    exact (Option.some_injective _ heq).symm
  subst hpp
  exact ⟨heq, by rw [← hp]; exact hprime, by rw [← hp] at hmin ⊢; exact hmin, by omega, by omega⟩

theorem jaccard_distance_arc_comm (s t : List Base) (k : Nat) :
    jaccard_distance_arc s t k = jaccard_distance_arc t s k := by
  unfold jaccard_distance_arc
  cases hs : k_mers_set s k <;> cases ht : k_mers_set t k
  · rfl
  · rfl
  · rfl
  · simp only [Option.some.injEq]
    rename_i ms ts
    rw [Finset.union_comm ms ts, Finset.inter_comm ms ts]

theorem pooled_dist_check_mem {c : List Base} {ys : List (List Base)}
    {min_dist : Rat} {k : Nat} (h : pooled_dist_check c ys min_dist k = true)
    {y : List Base} (hy : y ∈ ys) :
    ∃ d, jaccard_distance_arc c y k = some d ∧ min_dist ≤ d := by
  unfold pooled_dist_check at h
  rw [List.all_eq_true] at h
  have hf := h y hy
  cases hj : jaccard_distance_arc c y k with
  | none => rw [hj] at hf; simp at hf
  | some d =>
    rw [hj] at hf
    simp only [decide_eq_true_eq] at hf
    exact ⟨d, rfl, hf⟩

/-- Claim C1 (amended): under the mixed and naive encoding modes, whose
two-phase acceptance (read-lock snapshot check, then write-lock re-check of
the strands appended since) is is_inserted_consistent, every reachable
corpus is pairwise at Jaccard distance at least min_dist_to_seqs; under the
LSH mode acceptance exact-checks only the strands returned by similar_seqs,
and pairs the banding misses can violate the bound (see the
counterexample). -/
theorem C1_mixed_naive_invariant (k : Nat) (min_dist : Rat)
    (s : List (List Base)) (h : mn_reachable k min_dist s) :
    s.Pairwise (fun x y => ∃ d, jaccard_distance_arc x y k = some d ∧ min_dist ≤ d) := by
  induction h with
  | nil => exact List.Pairwise.nil
  | accept s snap c hre hpre h1 h2 ih =>
    rw [List.pairwise_append]
    refine ⟨ih, List.pairwise_singleton _ _, ?_⟩
    intro x hx y hy
    rw [List.mem_singleton] at hy
    subst hy
    obtain ⟨t, ht⟩ := hpre
    have hdrop : s.drop snap.length = t := by
      rw [← ht]
      exact List.drop_left snap t
    have hsplit : x ∈ snap ∨ x ∈ s.drop snap.length := by
      rw [hdrop, ← List.mem_append, ht]
      exact hx
    have hxc : ∃ d, jaccard_distance_arc y x k = some d ∧ min_dist ≤ d := by
      rcases hsplit with hx1 | hx2
      · exact pooled_dist_check_mem h1 hx1
      · exact pooled_dist_check_mem h2 hx2
    obtain ⟨d, hd, hdmin⟩ := hxc
    exact ⟨d, by rw [jaccard_distance_arc_comm]; exact hd, hdmin⟩

/-- Claim C1 witness: the corpus holding the strands AC and GT is reachable
in mixed or naive mode with k = 1 and min_dist = 2/5, and it is pairwise at
distance at least 2/5 (the two strands share no 1-mer, so their distance is
1). -/
theorem C1_witness :
    mn_reachable 1 (mkRat 2 5) [[A, C], [G, T]] ∧
      ([[A, C], [G, T]] : List (List Base)).Pairwise
        (fun x y => ∃ d, jaccard_distance_arc x y 1 = some d ∧ mkRat 2 5 ≤ d) := by
  have h0 : mn_reachable 1 (mkRat 2 5) [] := mn_reachable.nil
  have h1 : mn_reachable 1 (mkRat 2 5) ([] ++ [[A, C]]) :=
    mn_reachable.accept [] [] [A, C] h0 List.prefix_rfl (by decide) (by decide)
  have h1s : mn_reachable 1 (mkRat 2 5) [[A, C]] := by simpa using h1
  have h2 : mn_reachable 1 (mkRat 2 5) ([[A, C]] ++ [[G, T]]) :=
    mn_reachable.accept [[A, C]] [[A, C]] [G, T] h1s List.prefix_rfl (by decide) (by decide)
  have h2s : mn_reachable 1 (mkRat 2 5) [[A, C], [G, T]] := by simpa using h2
  exact ⟨h2s, C1_mixed_naive_invariant 1 (mkRat 2 5) _ h2s⟩

/-- Claim C1 counterexample: in LSH mode with k = 1, one band of size 1 and
the permutation (m, p, a, b) = (4, 5, 1, 1) — a possible outcome of the LSH
construction for k = 1 — the corpus holding ACGT and ACGA is reachable with
min_dist = 2/5 (the default 0.4): the two strands land in different bands
(MinHash 0 via the short-circuit on T, versus MinHash 1), so similar_seqs
returns nothing and no exact check ever runs, yet their Jaccard distance is
1/4, below 2/5.  Both strands even satisfy the GC and homopolymer rules. -/
theorem C1_counterexample :
    lsh_reachable ⟨1, 1, [⟨4, 5, 1, 1⟩]⟩ 1 (mkRat 2 5)
        (lsh_insert ⟨1, 1, [⟨4, 5, 1, 1⟩]⟩
          (lsh_insert ⟨1, 1, [⟨4, 5, 1, 1⟩]⟩ (List.replicate 1 []) [A, C, G, T])
          [A, C, G, A])
        [[A, C, G, T], [A, C, G, A]] ∧
      jaccard_distance_arc [A, C, G, T] [A, C, G, A] 1 = some (mkRat 1 4) ∧
      (mkRat 1 4 : Rat) < mkRat 2 5 ∧
      ([A, C, G, T] : List Base) ≠ [A, C, G, A] ∧
      satisfy_gc_hp_rules [A, C, G, T] 5 = true ∧
      satisfy_gc_hp_rules [A, C, G, A] 5 = true := by
  refine ⟨?_, by decide, by decide, by decide, by decide, by decide⟩
  have h0 : lsh_reachable ⟨1, 1, [⟨4, 5, 1, 1⟩]⟩ 1 (mkRat 2 5)
      (List.replicate 1 []) [] := lsh_reachable.nil
  have h1 := lsh_reachable.accept _ _ [A, C, G, T] h0 (by decide)
  have h2 := lsh_reachable.accept _ _ [A, C, G, A] h1 (by decide)
  simpa using h2

theorem combine_go_found_rule (packets : List (List Base × List Nat))
    (decodes : List (List Nat) → Bool) (overhead : Nat)
    (rule : List Base → Bool) :
    ∀ (order : List Nat) (fed : List (List Nat)) (dna : List Base) (used : Nat)
      (cur : Int) (s : List Base) (cnt : Nat),
      combine_go packets decodes overhead rule order fed dna used cur
        = PacketsResult.found s cnt → rule s = true := by
  intro order
  induction order with
  | nil =>
    intro fed dna used cur s cnt h
    simp [combine_go] at h
  | cons index rest ih =>
    intro fed dna used cur s cnt h
    rw [combine_go] at h
    dsimp only at h
    split at h
    · split at h
      · simp at h
      · split at h
        · split at h
          · rename_i hrule
            cases h
            exact hrule
          · simp at h
        · exact ih _ _ _ _ _ _ h
    · exact ih _ _ _ _ _ _ h

theorem inner_loop_done_rules (good : List (List Base × List Nat))
    (decodes : List (List Nat) → Bool) (overhead : Nat)
    (rule dg : List Base → Bool) (orders : Nat → List Nat) :
    ∀ (iters rng : Nat) (last : List Base) (lc : Nat) (s : List Base) (cnt : Nat),
      inner_loop good decodes overhead rule dg orders iters rng last lc
        = InnerResult.done s cnt → rule s = true ∧ dg s = true := by
  intro iters
  induction iters with
  | zero =>
    intro rng last lc s cnt h
    simp [inner_loop] at h
  | succ iters ih =>
    intro rng last lc s cnt h
    rw [inner_loop] at h
    cases hcomb : combine_packets_to_strand good decodes overhead (orders rng) rule with
    | found s0 c0 =>
      rw [hcomb] at h
      dsimp only at h
      by_cases hdg : dg s0 = true
      · rw [if_pos hdg] at h
        cases h
        unfold combine_packets_to_strand at hcomb
        exact ⟨combine_go_found_rule good decodes overhead rule
          (orders rng) [] [] 0 (-1) _ _ hcomb, hdg⟩
      · rw [if_neg (by simp [hdg])] at h
        exact ih _ _ _ _ _ h
    | overheadTooBig m =>
      rw [hcomb] at h
      dsimp only at h
      simp at h
    | notDecodable =>
      rw [hcomb] at h
      dsimp only at h
      simp at h
    | rulesNotSatisfied s0 c0 =>
      rw [hcomb] at h
      dsimp only at h
      exact ih _ _ _ _ _ h

/-- Claim C3 (amended): in every encoding mode the whole-strand predicate
passed to the encoder has the form GC/HP conjoined with a mode-specific
extra check, and whenever the inner packet-combination loop returns through
the Found path with the dg check passing, the returned strand satisfies the
GC/HP rules (and the dg check); the accepted Info-DNA is that strand with
the 4-base header prepended unchecked (dropping the header recovers the
checked strand).  On encoder exhaustion the unchecked last candidate is
finalized and accepted instead, and the counterexample shows such an
accepted strand violating the GC bound. -/
theorem C3_found_path_rules (good : List (List Base × List Nat))
    (decodes : List (List Nat) → Bool) (overhead max_hp_len : Nat)
    (extra dg : List Base → Bool) (orders : Nat → List Nat)
    (iters rng : Nat) (last : List Base) (lc : Nat) (s : List Base) (cnt : Nat)
    (h : inner_loop good decodes overhead
        (fun t => satisfy_gc_hp_rules t max_hp_len && extra t) dg orders iters rng last lc
      = InnerResult.done s cnt) :
    satisfy_gc_hp_rules s max_hp_len = true ∧ dg s = true ∧
      ∀ L : Nat, (finalize_encoding s L cnt).drop 4 = s := by
  obtain ⟨hrule, hdg⟩ := inner_loop_done_rules good decodes overhead _ dg orders
    iters rng last lc s cnt h
  rw [Bool.and_eq_true] at hrule
  refine ⟨hrule.1, hdg, ?_⟩
  intro L
  simp [finalize_encoding, map_half_byte_to_bases]

/-- Claim C3 witness: with a single good packet whose DNA mapping is ACGT, a
decoder that decodes immediately, overhead 0 and all-pass extra and dg
checks, the inner loop returns Found ACGT after one packet, and ACGT indeed
satisfies the GC/HP rules; dropping the header of the finalized strand
recovers it. -/
theorem C3_witness :
    inner_loop [([A, C, G, T], [0])] (fun _ => true) 0
        (fun t => satisfy_gc_hp_rules t 5 && (fun _ => true) t) (fun _ => true)
        (fun _ => [0]) 1 0 [] 0
      = InnerResult.done [A, C, G, T] 1 ∧
      satisfy_gc_hp_rules [A, C, G, T] 5 = true ∧
      (finalize_encoding [A, C, G, T] 1 1).drop 4 = [A, C, G, T] := by
  have hrun : inner_loop [([A, C, G, T], [0])] (fun _ => true) 0
      (fun t => satisfy_gc_hp_rules t 5 && (fun _ => true) t) (fun _ => true)
      (fun _ => [0]) 1 0 [] 0 = InnerResult.done [A, C, G, T] 1 := by decide
  obtain ⟨h1, _, h3⟩ := C3_found_path_rules [([A, C, G, T], [0])] (fun _ => true) 0 5
    (fun _ => true) (fun _ => true) (fun _ => [0]) 1 0 [] 0 [A, C, G, T] 1 hrun
  exact ⟨hrun, h1, h3 1⟩

/-- Claim C3 counterexample: on the empty payload, with repair packets whose
serialized bytes are all zero (so every per-packet DNA mapping is AAAA and
fails the GC check), the good-packet pool stays empty, the encoder exhausts
all 200 outer loops (the MAX_ENCODE_LOOPS of main.rs) and finalizes its
never-assigned last candidate: the returned Info-DNA is the bare header
AAAA.  The naive-mode pipeline accepts it into an empty corpus (the distance
checks are vacuous), yet its GC content is 0, outside [0.40, 0.60], so the
claimed invariant fails for this accepted strand. -/
theorem C3_counterexample :
    encode_to_dna_with_rules
        { data := [], packets_per_block := 5, max_block_encode_loops := 200, overhead := 0,
          gc_and_hp_check := fun s => satisfy_gc_hp_rules s 5,
          strand_rule_no_dg := fun s => satisfy_gc_hp_rules s 5,
          dg_check := fun _ => true,
          repair := fun _ count => List.replicate count [0, 0, 0, 0],
          decodes := fun _ => true,
          orders := fun _ => [] } = [A, A, A, A] ∧
      mn_reachable 5 (mkRat 2 5) [[A, A, A, A]] ∧
      gc_of [A, A, A, A] = 0 ∧ ¬ (mkRat 2 5 ≤ gc_of [A, A, A, A]) ∧
      satisfy_gc_hp_rules [A, A, A, A] 5 = false := by
  refine ⟨by decide, ?_, by decide, by decide, by decide⟩
  have h0 : mn_reachable 5 (mkRat 2 5) [] := mn_reachable.nil
  have h1 : mn_reachable 5 (mkRat 2 5) ([] ++ [[A, A, A, A]]) :=
    mn_reachable.accept [] [] [A, A, A, A] h0 List.prefix_rfl (by decide) (by decide)
  simpa using h1

theorem encode_step_num (A : EncArgs) (s s2 : EncState)
    (h : encode_step A s = Sum.inl s2) : s2.num = s.num + 1 := by
  rw [encode_step] at h
  split at h
  · exact absurd h (by simp)
  all_goals (cases h; rfl)

theorem loop_iter_inr (A : EncArgs) (r : List Base × Nat) :
    ∀ n, loop_iter A n (Sum.inr r) = Sum.inr r := by
  intro n
  induction n with
  | zero => rfl
  | succ n ih =>
    rw [loop_iter]
    exact ih

/-- Claim C9: the outer loop of encode_to_dna_with_rules terminates within
its bound: iterating the literally guarded loop body (counter strictly below
max_block_encode_loops, each step incrementing the counter) for
max_block_encode_loops - num + 1 steps from any running state always reaches
a finished result, and that result is the value computed by the gas-indexed
rendering encode_loop_aux that encode_to_dna_with_rules evaluates; each
inner pass (combine_packets_to_strand over the finite order list, and the
inner loop over the good-packet pool) is structurally recursive and total.
In particular, from the initial state the loop body runs at most
max_block_encode_loops times for every payload, packet parameter, overhead
and choice of the three predicates and of the black-box fountain-code and
rng behaviours. -/
theorem C9_encoder_terminates (A : EncArgs) (s : EncState) :
    loop_iter A (A.max_block_encode_loops - s.num + 1) (Sum.inl s)
      = Sum.inr (encode_loop_aux A (A.max_block_encode_loops - s.num) s) := by
  generalize hg : A.max_block_encode_loops - s.num = g
  induction g generalizing s with
  | zero =>
    have hnum : ¬ s.num < A.max_block_encode_loops := by omega
    simp [loop_iter, loop_body, hnum, encode_loop_aux]
  | succ g ih =>
    have hnum : s.num < A.max_block_encode_loops := by omega
    show loop_iter A (g + 1 + 1) (Sum.inl s) = _
    rw [loop_iter]
    have hb : loop_body A (Sum.inl s) = encode_step A s := by
      simp [loop_body, hnum]
    rw [hb]
    cases hstep : encode_step A s with
    | inr r =>
      rw [loop_iter_inr]
      rw [encode_loop_aux, hstep]
    | inl s2 =>
      have hn2 : A.max_block_encode_loops - s2.num = g := by
        have := encode_step_num A s s2 hstep
        omega
      rw [encode_loop_aux, hstep]
      exact ih s2 hn2

theorem foldl_min_zero (l : List Nat) : l.foldl Nat.min 0 = 0 := by
  induction l with
  | nil => rfl
  | cons x xs ih =>
    rw [List.foldl_cons]
    have h0 : Nat.min 0 x = 0 := Nat.zero_min x
    rw [h0]
    exact ih

theorem min_hash_loop_eq_foldl (pp : PseudoPermutation) :
    ∀ (l : List Nat) (acc : Nat),
      min_hash_loop pp l acc = (l.map pp.apply).foldl Nat.min acc := by
  intro l
  induction l with
  | nil => intro acc; rfl
  | cons x rest ih =>
    intro acc
    rw [min_hash_loop, List.map_cons, List.foldl_cons]
    by_cases h : pp.apply x = 0
    · rw [if_pos h, h]
      have h0 : Nat.min acc 0 = 0 := Nat.min_zero acc
      rw [h0]
      exact (foldl_min_zero _).symm
    · rw [if_neg h]
      have hmin : (if pp.apply x < acc then pp.apply x else acc)
          = Nat.min acc (pp.apply x) := by
        by_cases hlt : pp.apply x < acc
        · rw [if_pos hlt]
          exact (Nat.min_eq_right (Nat.le_of_lt hlt)).symm
        · rw [if_neg hlt]
          exact (Nat.min_eq_left (Nat.le_of_not_lt hlt)).symm
      rw [hmin, ih]

theorem foldl_min_facts : ∀ (l : List Nat) (acc : Nat),
    (l.foldl Nat.min acc = acc ∨ l.foldl Nat.min acc ∈ l) ∧
      l.foldl Nat.min acc ≤ acc ∧ ∀ x ∈ l, l.foldl Nat.min acc ≤ x := by
  intro l
  induction l with
  | nil =>
    intro acc
    exact ⟨Or.inl rfl, Nat.le_refl _, by simp⟩
  | cons y rest ih =>
    intro acc
    rw [List.foldl_cons]
    obtain ⟨hmem, hacc, hbound⟩ := ih (Nat.min acc y)
    refine ⟨?_, le_trans hacc (Nat.min_le_left _ _), ?_⟩
    · rcases hmem with h | h
      · by_cases h2 : Nat.min acc y = acc
        · exact Or.inl (h.trans h2)
        · have h3 : Nat.min acc y = y := by
            rcases Nat.le_total acc y with hle | hle
            · exact absurd (Nat.min_eq_left hle) h2
            · exact Nat.min_eq_right hle
          exact Or.inr (by rw [h, h3]; exact List.mem_cons_self _ _)
      · exact Or.inr (List.mem_cons_of_mem _ h)
    · intro x hx
      rcases List.mem_cons.mp hx with rfl | hx2
      · exact le_trans hacc (Nat.min_le_right _ _)
      · exact hbound x hx2

theorem apply_le_usize_max (pp : PseudoPermutation) (x : Nat) :
    pp.apply x ≤ usize_max := by
  unfold PseudoPermutation.apply usize_max
  have h1 : (pp.a * x % 2 ^ 64 + pp.b) % 2 ^ 64 < 2 ^ 64 :=
    Nat.mod_lt _ (by norm_num)
  have h2 := Nat.mod_le ((pp.a * x % 2 ^ 64 + pp.b) % 2 ^ 64) pp.p
  have h3 := Nat.mod_le ((pp.a * x % 2 ^ 64 + pp.b) % 2 ^ 64 % pp.p) pp.m
  omega

theorem getD_map_perms (f : PseudoPermutation → Nat) (l : List PseudoPermutation)
    (j : Nat) (h : j < l.length) :
    (l.map f).getD j 0 = f (l.getD j default) := by
  rw [List.getD_eq_getElem?_getD, List.getD_eq_getElem?_getD, List.getElem?_map,
    List.getElem?_eq_getElem h]
  simp

theorem ordOf_le_three (b : Base) : ordOf b ≤ 3 := by
  cases b <;> simp [ordOf]

theorem row_id_no_wrap (seq : List Base) :
    ∀ n, n ≤ 31 →
      ((List.range n).foldl
          (fun id i =>
            let order := ordOf (seq.getD i Base.A)
            if order = 0 then id else (id + order * (4 ^ i % 2 ^ 64)) % 2 ^ 64) 0
        = (List.range n).foldl
          (fun id i =>
            let order := ordOf (seq.getD i Base.A)
            if order = 0 then id else id + order * 4 ^ i) 0) ∧
      (List.range n).foldl
          (fun id i =>
            let order := ordOf (seq.getD i Base.A)
            if order = 0 then id else id + order * 4 ^ i) 0 < 4 ^ n := by
  intro n
  induction n with
  | zero => exact fun _ => ⟨rfl, by norm_num⟩
  | succ n ih =>
    intro hn
    obtain ⟨heq, hlt⟩ := ih (by omega)
    rw [List.range_succ, List.foldl_append, List.foldl_append, heq]
    rw [List.foldl_cons, List.foldl_nil, List.foldl_cons, List.foldl_nil]
    dsimp only
    set prev := (List.range n).foldl
      (fun id i =>
        let order := ordOf (seq.getD i Base.A)
        if order = 0 then id else id + order * 4 ^ i) 0 with hprev
    have hord := ordOf_le_three (seq.getD n Base.A)
    have hpow : (4 : Nat) ^ n < 2 ^ 64 := by
      calc (4 : Nat) ^ n ≤ 4 ^ 30 := Nat.pow_le_pow_right (by norm_num) (by omega)
        _ < 2 ^ 64 := by norm_num
    have hpow2 : (4 : Nat) ^ (n + 1) ≤ 2 ^ 64 := by
      calc (4 : Nat) ^ (n + 1) ≤ 4 ^ 31 := Nat.pow_le_pow_right (by norm_num) (by omega)
        _ ≤ 2 ^ 64 := by norm_num
    have hstep : prev + ordOf (seq.getD n Base.A) * 4 ^ n < 4 ^ (n + 1) := by
      have h4 : (4 : Nat) ^ (n + 1) = 4 * 4 ^ n := by ring
      have hmul : ordOf (seq.getD n Base.A) * 4 ^ n ≤ 3 * 4 ^ n :=
        Nat.mul_le_mul_right _ hord
      omega
    by_cases h0 : ordOf (seq.getD n Base.A) = 0
    · rw [if_pos h0, if_pos h0]
      constructor
      · rfl
      · calc prev < 4 ^ n := hlt
          _ < 4 ^ (n + 1) := by
            have : (4 : Nat) ^ (n + 1) = 4 * 4 ^ n := by ring
            have hp : (0 : Nat) < 4 ^ n := Nat.pos_pow_of_pos n (by norm_num)
            omega
    · rw [if_neg h0, if_neg h0]
      have hmod1 : (4 : Nat) ^ n % 2 ^ 64 = 4 ^ n := Nat.mod_eq_of_lt hpow
      rw [hmod1]
      have hmod2 : (prev + ordOf (seq.getD n Base.A) * 4 ^ n) % 2 ^ 64
          = prev + ordOf (seq.getD n Base.A) * 4 ^ n :=
        Nat.mod_eq_of_lt (by omega)
      rw [hmod2]
      exact ⟨rfl, hstep⟩

theorem initial_row_id_eq_spec (w : List Base) (h : w.length ≤ 31) :
    initial_row_id w = spec_row_id w :=
  (row_id_no_wrap w w.length h).1

/-- Claim C5: for every strand with at least one k-mer and every permutation
index j, the j-th entry of min_hashes is exactly the minimum over all k-mers
w of the strand of the permuted identifier apply(initial_row_id(w)) — it is
one of the permuted identifiers and a lower bound of all of them — so the
early break on a zero permuted identifier never changes the value; and for
k-mers of length at most 31 (larger k aborts inside the LSH constructor
before min_hashes can run, since 4 ^ k wraps to 0 and apply divides by m)
the identifier initial_row_id(w) is the plain sum of ordinal times 4 ^ i
over the positions whose base is not A, as the specification states. -/
theorem C5_min_hashes_reference :
    (∀ (cfg : LSHConfig) (s : List Base) (j : Nat),
        cfg.k ≤ s.length → j < cfg.perms.length →
        ∃ mhs, min_hashes cfg s = some mhs ∧
          (mhs.getD j 0 ∈ (k_mers_of s cfg.k).map
              (fun w => (cfg.perms.getD j default).apply (initial_row_id w)) ∧
            ∀ v ∈ (k_mers_of s cfg.k).map
                (fun w => (cfg.perms.getD j default).apply (initial_row_id w)),
              mhs.getD j 0 ≤ v)) ∧
      ∀ w : List Base, w.length ≤ 31 → initial_row_id w = spec_row_id w := by
  constructor
  · intro cfg s j hk hj
    unfold min_hashes
    rw [if_neg (by omega)]
    refine ⟨_, rfl, ?_⟩
    have hget := getD_map_perms
      (fun pp => min_hash_loop pp ((k_mers_of s cfg.k).map initial_row_id) usize_max)
      cfg.perms j hj
    rw [hget]
    dsimp only
    rw [min_hash_loop_eq_foldl]
    have hlist : ((k_mers_of s cfg.k).map initial_row_id).map
        (cfg.perms.getD j default).apply
        = (k_mers_of s cfg.k).map
            (fun w => (cfg.perms.getD j default).apply (initial_row_id w)) := by
      rw [List.map_map]
      rfl
    rw [hlist]
    set mapped := (k_mers_of s cfg.k).map
      (fun w => (cfg.perms.getD j default).apply (initial_row_id w)) with hmapped
    have hne : mapped ≠ [] := by
      rw [hmapped]
      simp only [ne_eq, List.map_eq_nil_iff]
      unfold k_mers_of
      simp only [List.map_eq_nil_iff, List.range_eq_nil]
      omega
    have hle : ∀ v ∈ mapped, v ≤ usize_max := by
      intro v hv
      rw [hmapped, List.mem_map] at hv
      obtain ⟨w, _, rfl⟩ := hv
      exact apply_le_usize_max _ _
    obtain ⟨hmem, hacc, hbound⟩ := foldl_min_facts mapped usize_max
    rcases hmem with hfix | hmem2
    · obtain ⟨x0, hx0⟩ := List.exists_mem_of_ne_nil mapped hne
      have h1 : x0 ≤ usize_max := hle x0 hx0
      have h2 : mapped.foldl Nat.min usize_max ≤ x0 := hbound x0 hx0
      have h3 : mapped.foldl Nat.min usize_max = x0 := by omega
      exact ⟨h3 ▸ hx0, hbound⟩
    · exact ⟨hmem2, hbound⟩
  · exact initial_row_id_eq_spec

/-- Claim C5 witness: for the configuration with k = 1 and the single
permutation (4, 5, 1, 1), the strand AC has min_hashes [1]; the value 1 is
among the permuted identifiers of the two 1-mers (which are 1 and 2) and a
lower bound of them; and initial_row_id of CG equals the plain specification
sum 1 * 4 ^ 0 + 2 * 4 ^ 1 = 9. -/
theorem C5_witness :
    min_hashes ⟨1, 1, [⟨4, 5, 1, 1⟩]⟩ [A, C] = some [1] ∧
      (∃ mhs, min_hashes ⟨1, 1, [⟨4, 5, 1, 1⟩]⟩ [A, C] = some mhs ∧
        (mhs.getD 0 0 ∈ (k_mers_of [A, C] 1).map
            (fun w => (([⟨4, 5, 1, 1⟩] : List PseudoPermutation).getD 0 default).apply
              (initial_row_id w)) ∧
          ∀ v ∈ (k_mers_of [A, C] 1).map
              (fun w => (([⟨4, 5, 1, 1⟩] : List PseudoPermutation).getD 0 default).apply
                (initial_row_id w)),
            mhs.getD 0 0 ≤ v)) ∧
      initial_row_id [C, G] = spec_row_id [C, G] ∧ spec_row_id [C, G] = 9 := by
  obtain ⟨hmain, hid⟩ := C5_min_hashes_reference
  exact ⟨by decide, hmain ⟨1, 1, [⟨4, 5, 1, 1⟩]⟩ [A, C] 0 (by decide) (by decide),
    hid [C, G] (by decide), by decide⟩

/-- Claim C10: jaccard_distance_arc(s, t, k) completes and returns exactly
1 - intersection / union of the two k-mer sets precisely when k is at most
the length of both strands (in which case the union is nonempty); when k
exceeds either length, the k_mers_set call panics (modelled as none); and
every distance acceptance check of the pipeline that passes has therefore
compared only strands of length at least k — the candidate and every
compared strand. -/
theorem C10_jaccard_precondition :
    (∀ (s t : List Base) (k : Nat), k ≤ s.length → k ≤ t.length →
        ∃ ms ts, k_mers_set s k = some ms ∧ k_mers_set t k = some ts ∧
          0 < (ms ∪ ts).card ∧
          jaccard_distance_arc s t k
            = some (1 - ((ms ∩ ts).card : Rat) / ((ms ∪ ts).card : Rat))) ∧
      (∀ (s t : List Base) (k : Nat), s.length < k ∨ t.length < k →
        jaccard_distance_arc s t k = none) ∧
      (∀ (c : List Base) (ys : List (List Base)) (min_dist : Rat) (k : Nat),
        pooled_dist_check c ys min_dist k = true →
        ∀ y ∈ ys, k ≤ c.length ∧ k ≤ y.length) := by
  refine ⟨?_, ?_, ?_⟩
  · intro s t k hs ht
    have hms : k_mers_set s k = some (k_mers_of s k).toFinset := by
      unfold k_mers_set
      rw [if_neg (by omega)]
    have hts : k_mers_set t k = some (k_mers_of t k).toFinset := by
      unfold k_mers_set
      rw [if_neg (by omega)]
    have hne : k_mers_of s k ≠ [] := by
      unfold k_mers_of
      simp only [ne_eq, List.map_eq_nil_iff, List.range_eq_nil]
      omega
    obtain ⟨w, hw⟩ := List.exists_mem_of_ne_nil _ hne
    have hwu : w ∈ (k_mers_of s k).toFinset ∪ (k_mers_of t k).toFinset :=
      Finset.mem_union_left _ (List.mem_toFinset.mpr hw)
    have hcard : 0 < ((k_mers_of s k).toFinset ∪ (k_mers_of t k).toFinset).card :=
      Finset.card_pos.mpr ⟨w, hwu⟩
    refine ⟨_, _, hms, hts, hcard, ?_⟩
    unfold jaccard_distance_arc
    rw [hms, hts]
    dsimp only
    congr 1
    have hsub : ((k_mers_of s k).toFinset ∩ (k_mers_of t k).toFinset).card
        ≤ ((k_mers_of s k).toFinset ∪ (k_mers_of t k).toFinset).card :=
      Finset.card_le_card (Finset.inter_subset_union)
    rw [Rat.mkRat_eq_div]
    have hcast : ((((k_mers_of s k).toFinset ∪ (k_mers_of t k).toFinset).card
          - ((k_mers_of s k).toFinset ∩ (k_mers_of t k).toFinset).card : Nat) : Int)
        = (((k_mers_of s k).toFinset ∪ (k_mers_of t k).toFinset).card : Int)
          - (((k_mers_of s k).toFinset ∩ (k_mers_of t k).toFinset).card : Int) := by
      omega
    rw [hcast]
    have hu0 : ((((k_mers_of s k).toFinset ∪ (k_mers_of t k).toFinset).card : Nat) : Rat) ≠ 0 := by
      rw [ne_eq, Nat.cast_eq_zero]
      omega
    push_cast
    field_simp
  · intro s t k h
    unfold jaccard_distance_arc
    rcases h with h | h
    · have hnone : k_mers_set s k = none := by
        unfold k_mers_set
        rw [if_pos h]
      rw [hnone]
    · have hnone : k_mers_set t k = none := by
        unfold k_mers_set
        rw [if_pos h]
      rw [hnone]
      cases k_mers_set s k <;> rfl
  · intro c ys min_dist k h y hy
    obtain ⟨d, hd, _⟩ := pooled_dist_check_mem h hy
    by_cases hc : c.length < k
    · have : jaccard_distance_arc c y k = none := by
        unfold jaccard_distance_arc
        have hnone : k_mers_set c k = none := by
          unfold k_mers_set
          rw [if_pos hc]
        rw [hnone]
      rw [this] at hd
      exact absurd hd (by simp)
    · by_cases hyl : y.length < k
      · have : jaccard_distance_arc c y k = none := by
          unfold jaccard_distance_arc
          have hnone : k_mers_set y k = none := by
            unfold k_mers_set
            rw [if_pos hyl]
          rw [hnone]
          cases k_mers_set c k <;> rfl
        rw [this] at hd
        exact absurd hd (by simp)
      · exact ⟨by omega, by omega⟩

/-- Claim C10 witness: for the strands AC and AG with k = 1 the distance is
defined and equals 1 - 1/3 (one shared 1-mer out of three), and both lengths
are at least 1; for k = 5 the distance call panics (none). -/
theorem C10_witness :
    jaccard_distance_arc [A, C] [A, G] 1
        = some (1 - ((1 : Nat) : Rat) / ((3 : Nat) : Rat)) ∧
      jaccard_distance_arc [A, C] [A, G] 5 = none ∧
      (∀ y ∈ [[A, G]], 1 ≤ ([A, C] : List Base).length ∧ 1 ≤ y.length) := by
  obtain ⟨hdef, hpanic, hcheck⟩ := C10_jaccard_precondition
  obtain ⟨ms, ts, hms, hts, hpos, hval⟩ := hdef [A, C] [A, G] 1 (by decide) (by decide)
  have hms2 : ms = (k_mers_of [A, C] 1).toFinset := by
    have : k_mers_set [A, C] 1 = some (k_mers_of [A, C] 1).toFinset := by decide
    rw [this] at hms
    exact (Option.some_injective _ hms.symm)
  have hts2 : ts = (k_mers_of [A, G] 1).toFinset := by
    have : k_mers_set [A, G] 1 = some (k_mers_of [A, G] 1).toFinset := by decide
    rw [this] at hts
    exact (Option.some_injective _ hts.symm)
  refine ⟨?_, hpanic [A, C] [A, G] 5 (Or.inl (by decide)), ?_⟩
  · rw [hval, hms2, hts2]
    have hi : ((k_mers_of [A, C] 1).toFinset ∩ (k_mers_of [A, G] 1).toFinset).card = 1 := by
      decide
    have hu : ((k_mers_of [A, C] 1).toFinset ∪ (k_mers_of [A, G] 1).toFinset).card = 3 := by
      decide
    rw [hi, hu]
  · exact hcheck [A, C] [[A, G]] (mkRat 1 2) 1 (by decide)

end RQPAP
